import Mathlib

/-!
Verification of the k8s-app-engine policy-to-plan core against its source.

The development shallowly embeds the parts of the source that the checked
properties talk about:

* the sorted byte-slice container `IndexValueList` with its `add`, `remove`
  and `containsVal` operations (package `store`, file `objects.go`);
* the generational etcd store `Save` workflow with its `lastgen` and
  `listgen` index maintenance (package `etcd`);
* the `Find` result-shape validation (package `etcd`);
* the API handlers for policy update and policy delete, with their
  weight-based object ordering, ACL checks and noop branch (package `api`);
* the marshal/unmarshal round trip used by the test policy loader
  (package `lang`); the codec itself is not part of the given sources and
  is modelled from the specification.

Machine integers of the source are modelled as `Nat`: generations are
`uint64` values that the workflow only ever increments by one, far from
overflow, and byte values are `Nat` codes.
-/

/-! ## Byte strings and `IndexValueList` (package `store`)

`IndexValueList` is `[][]byte` kept sorted; `Add`, `Remove` and `Contains`
locate positions with `sort.Search` (binary search for the least index
satisfying a monotone predicate) over `bytes.Compare`.  On the sorted lists
these methods maintain, the binary search coincides with the least index
whose element is not below the probe, which is how `lowerBound` is defined
here. -/

/-- A byte slice, as a list of byte codes. -/
abbrev ByteStr := List Nat

/-- `bytes.Compare`: lexicographic comparison of byte slices. -/
def bytesCompare : ByteStr → ByteStr → Ordering
  | [], [] => .eq
  | [], _ :: _ => .lt
  | _ :: _, [] => .gt
  | a :: as, b :: bs => if a < b then .lt else if b < a then .gt else bytesCompare as bs

/-- Index of the first element of `l` that is not strictly below `v`
(`l.length` when every element is below `v`).  This is the value
`sort.Search(len(list), func(i) { return bytes.Compare(list[i], value) >= 0 })`
computes on the sorted lists the container maintains. -/
def lowerBound (l : List ByteStr) (v : ByteStr) : Nat :=
  l.findIdx (fun x => bytesCompare x v ≠ .lt)

namespace IndexValueList

/-- `IndexValueList.Add`: insert `value` at its sorted position unless the
element at the found position already equals it. -/
def add (l : List ByteStr) (value : ByteStr) : List ByteStr :=
  let valueIndex := lowerBound l value
  if valueIndex < l.length ∧ l.getD valueIndex [] = value then l
  else l.take valueIndex ++ value :: l.drop valueIndex

/-- `IndexValueList.Remove`: drop the element at the found position whenever
that position is in range.  The source performs exactly this (a `copy`
shifting the tail left and a truncation); it does not compare the element
with `value` first. -/
def remove (l : List ByteStr) (value : ByteStr) : List ByteStr :=
  let valueIndex := lowerBound l value
  if valueIndex < l.length then l.eraseIdx valueIndex else l

/-- `IndexValueList.Contains`: the element at the found position is in range
and equals `value`. -/
def containsVal (l : List ByteStr) (value : ByteStr) : Prop :=
  lowerBound l value < l.length ∧ l.getD (lowerBound l value) [] = value

end IndexValueList

/-- Membership in the result of `add` is membership in the input or equality
with the inserted value. -/
theorem mem_indexValueList_add {l : List ByteStr} {v b : ByteStr} :
    b ∈ IndexValueList.add l v ↔ b ∈ l ∨ b = v := by
  unfold IndexValueList.add
  by_cases h : lowerBound l v < l.length ∧ l.getD (lowerBound l v) [] = v
  · simp only [if_pos h]
    constructor
    · exact fun hb => Or.inl hb
    · rintro (hb | rfl)
      · exact hb
      · rw [← h.2, List.getD_eq_getElem l [] h.1]
        exact List.getElem_mem h.1
  · simp only [if_neg h]
    constructor
    · intro hb
      rcases List.mem_append.1 hb with h1 | h2
      · exact Or.inl (List.mem_of_mem_take h1)
      · rcases List.mem_cons.1 h2 with rfl | h3
        · exact Or.inr rfl
        · exact Or.inl (List.mem_of_mem_drop h3)
    · rintro (hb | rfl)
      · have := List.take_append_drop (lowerBound l v) l
        rw [← this] at hb
        rcases List.mem_append.1 hb with h1 | h2
        · exact List.mem_append.2 (Or.inl h1)
        · exact List.mem_append.2 (Or.inr (List.mem_cons_of_mem _ h2))
      · exact List.mem_append.2 (Or.inr (List.mem_cons_self _ _))

/-! ## Generation marshaling

`marshalGen`/`unmarshalGen` are not part of the given sources; per the
specification the value-to-string conversion for generations is native
decimal stringification.  `marshalGen` below produces the ASCII decimal
digits of a positive generation (big-endian), via a fuel-indexed structural
recursion so that it evaluates by reduction. -/

/-- Little-endian ASCII decimal digits of `n`, with `fuel ≥ n` steps. -/
def genBytesAux : Nat → Nat → List Nat
  | 0, _ => []
  | fuel + 1, n => if n = 0 then [] else (n % 10 + 48) :: genBytesAux fuel (n / 10)

/-- Modelled from the spec: decimal stringification of a generation
(`Generation.String()`), as ASCII byte codes. -/
def marshalGen (g : Nat) : ByteStr := (genBytesAux g g).reverse

/-- Decode little-endian ASCII decimal digits back to a number. -/
def unGenBytes : List Nat → Nat
  | [] => 0
  | d :: ds => (d - 48) + 10 * unGenBytes ds

theorem unGenBytes_genBytesAux : ∀ fuel n, n ≤ fuel → unGenBytes (genBytesAux fuel n) = n := by
  intro fuel
  induction fuel with
  | zero => intro n hn; interval_cases n; rfl
  | succ f ih =>
    intro n hn
    by_cases h0 : n = 0
    · subst h0; simp [genBytesAux, unGenBytes]
    · have hdiv : n / 10 ≤ f := by
        have h1 : n / 10 < n := Nat.div_lt_self (Nat.pos_of_ne_zero h0) (by norm_num)
        omega
      simp only [genBytesAux, if_neg h0, unGenBytes, ih (n / 10) hdiv]
      omega

theorem marshalGen_injective : Function.Injective marshalGen := by
  intro a b hab
  have ha := unGenBytes_genBytesAux a a le_rfl
  have hb := unGenBytes_genBytesAux b b le_rfl
  have : genBytesAux a a = genBytesAux b b := by
    have := congrArg List.reverse hab
    simpa [marshalGen] using this
  rw [this, hb] at ha
  exact ha.symm

/-! ## The generational store (package `etcd`)

Objects, keys and type information.  A `runtime.Storable` is modelled by its
key parts (`namespace/kind/name`), its generation field, and the remaining
struct fields as an association list of field name to the string the index
layer derives for the value (the source reads fields by reflection and
stringifies the value natively or via the codec).  `runtime.TypeInfo`
carries the versioned flag, the list of struct fields tagged `store:"index"`
(unique within one Go struct), and the per-field value transforms
(`IndexValueTransforms`, defaulting to the identity `noopValueTransform`).

The codec (`s.marshal`/`s.unmarshal`) is not part of the given sources; per
the specification it round-trips faithfully, so the store holds object
values directly, and the `lastgen` index holds the generation number
directly (`marshalGen`/`unmarshalGen` round-trip). -/

/-- An object key: `namespace/kind/name` (`runtime.KeyForStorable`). -/
structure Key where
  ns : String
  kind : String
  name : String
deriving DecidableEq

/-- A versioned storable object: key parts, generation and remaining fields. -/
structure Storable where
  ns : String
  kind : String
  name : String
  gen : Nat
  fields : List (String × String)
deriving DecidableEq

/-- The key of a storable (`runtime.KeyForStorable`). -/
def keyOf (s : Storable) : Key := ⟨s.ns, s.kind, s.name⟩

/-- The value the index layer reads from a struct field (first binding of
the name, as reflection reads the unique struct field). -/
def getField (s : Storable) (f : String) : String :=
  ((s.fields.find? (fun p => p.1 = f)).map Prod.snd).getD ""

/-- `runtime.TypeInfo`, restricted to what the store workflow reads. -/
structure TypeInfo where
  versioned : Bool
  indexFields : List String
  transform : String → String → String

/-- The transformed index value of field `f` of object `o`. -/
def valueOf (info : TypeInfo) (f : String) (o : Storable) : String :=
  info.transform f (getField o f)

/-- The catalog of types, `kind → TypeInfo` (`runtime.Types.Get`). -/
abbrev Types := String → TypeInfo

/-- The etcd key space touched by `Save`:
`/object/<key>@<gen>` marshaled objects, `/index/lastgen/<key>` last
generations, and `/index/listgen/<key>/<field>=<value>` generation lists. -/
structure Store where
  objects : Key → Nat → Option Storable
  lastGen : Key → Option Nat
  listGen : Key → String → String → List ByteStr

/-- The store with no keys present. -/
def emptyStore : Store where
  objects := fun _ _ => none
  lastGen := fun _ => none
  listGen := fun _ _ _ => []

theorem store_ext {a b : Store} (ho : a.objects = b.objects)
    (hl : a.lastGen = b.lastGen) (hg : a.listGen = b.listGen) : a = b := by
  cases a; cases b; simp_all

/-- One `listgen` index update inside the `Save` transaction: read the
marshaled `IndexValueList` at `/index/listgen/<key>/<f>=<v>` (empty when
absent), `Add` the marshaled new generation, and put it back. -/
def updateListGen (key : Key) (f v : String) (g : Nat) (st : Store) : Store :=
  { st with
    listGen := fun k f2 v2 =>
      if k = key ∧ f2 = f ∧ v2 = v then
        IndexValueList.add (st.listGen k f2 v2) (marshalGen g)
      else st.listGen k f2 v2 }

/-- The `listgen` part of the index loop of `Save`: one `updateListGen` per
field tagged `store:"index"`, keyed under the transformed value the new
object carries for that field (`index.KeyForStorable(newStorable)`). -/
def writeListGens (info : TypeInfo) (key : Key) (s2 : Storable) (st : Store) : Store :=
  info.indexFields.foldl
    (fun acc f => updateListGen key f (valueOf info f s2) s2.gen acc) st

/-- The write section of the `Save` transaction for a versioned object whose
final generation has been decided: put the marshaled object at
`/object/<key>@<gen>`, then walk the indexes, putting the new generation
into the `lastgen` index and adding it to each `listgen` index.  The source
walks a map of indexes in arbitrary order; the updates touch pairwise
distinct keys, so the fixed order used here is equivalent. -/
def putObjectAndIndexes (info : TypeInfo) (st : Store) (s2 : Storable) : Store :=
  let key := keyOf s2
  let st1 : Store :=
    { st with objects := fun k g => if k = key ∧ g = s2.gen then some s2 else st.objects k g }
  let st2 : Store :=
    { st1 with lastGen := fun k => if k = key then some s2.gen else st1.lastGen k }
  writeListGens info key s2 st2

/-- `store.SaveOpt`: default, or `ReplaceOrForceGen`. -/
inductive SaveMode
  | dflt
  | replaceOrForceGen
deriving DecidableEq

/-- `etcdStore.Save`.  Faithful to the source workflow:

1. a non-versioned object is put at `/object/<key>@0` with no index updates;
2. versioned, `ReplaceOrForceGen`: a zero caller generation is an error;
   otherwise the caller generation is kept.  The source reads a previous
   object at that generation into a freshly shadowed local (`prevObj :=`),
   so the outer `prevObj` stays nil and no index removal happens (the
   removal is a `todo` in the source);
3. versioned, default: read the `lastgen` index; when absent assign
   `runtime.FirstGen` (1); when present load the object at that generation
   (error when missing), compare it with the new object via
   `reflect.DeepEqual` — which compares every field, the generation
   included — and either return with no writes (equal, generation set to
   the last one) or assign the next generation;
4. finally write the object and update the indexes. -/
def etcdSave (types : Types) (mode : SaveMode) (st : Store) (s : Storable) :
    Except String (Store × Storable) :=
  let info := types s.kind
  let key := keyOf s
  if info.versioned = false then
    .ok ({ st with objects := fun k g => if k = key ∧ g = 0 then some s else st.objects k g }, s)
  else
    match mode with
    | .replaceOrForceGen =>
      if s.gen = 0 then
        .error "error while saving object with replaceOrForceGen option but with empty generation"
      else
        .ok (putObjectAndIndexes info st s, s)
    | .dflt =>
      match st.lastGen key with
      | none =>
        let s2 := { s with gen := 1 }
        .ok (putObjectAndIndexes info st s2, s2)
      | some lastGen =>
        match st.objects key lastGen with
        | none => .error "last gen index seems to be corrupted: generation does not exist"
        | some prevObj =>
          if prevObj = s then
            .ok (st, { s with gen := lastGen })
          else
            let s2 := { s with gen := lastGen + 1 }
            .ok (putObjectAndIndexes info st s2, s2)

/-! ## Effect of the write section on the three key spaces -/

theorem foldl_updateListGen_objects (key : Key) (s2 : Storable) (vOf : String → String) :
    ∀ (fs : List String) (st : Store),
      (fs.foldl (fun acc f => updateListGen key f (vOf f) s2.gen acc) st).objects = st.objects := by
  intro fs
  induction fs with
  | nil => intro st; rfl
  | cons f rest ih => intro st; rw [List.foldl_cons, ih]; rfl

theorem foldl_updateListGen_lastGen (key : Key) (s2 : Storable) (vOf : String → String) :
    ∀ (fs : List String) (st : Store),
      (fs.foldl (fun acc f => updateListGen key f (vOf f) s2.gen acc) st).lastGen = st.lastGen := by
  intro fs
  induction fs with
  | nil => intro st; rfl
  | cons f rest ih => intro st; rw [List.foldl_cons, ih]; rfl

theorem foldl_updateListGen_listGen (key : Key) (s2 : Storable) (vOf : String → String)
    (k : Key) (f : String) (v : String) :
    ∀ (fs : List String), fs.Nodup → ∀ (st : Store),
      (fs.foldl (fun acc f2 => updateListGen key f2 (vOf f2) s2.gen acc) st).listGen k f v =
        if f ∈ fs ∧ k = key ∧ v = vOf f then
          IndexValueList.add (st.listGen k f v) (marshalGen s2.gen)
        else st.listGen k f v := by
  intro fs
  induction fs with
  | nil => intro _ st; simp
  | cons f0 rest ih =>
    intro hnd st
    have hf0 : f0 ∉ rest := (List.nodup_cons.1 hnd).1
    have hndr : rest.Nodup := (List.nodup_cons.1 hnd).2
    rw [List.foldl_cons, ih hndr]
    by_cases hA : f ∈ rest ∧ k = key ∧ v = vOf f
    · have hff0 : f ≠ f0 := fun h => hf0 (h ▸ hA.1)
      rw [if_pos hA, if_pos ⟨List.mem_cons_of_mem _ hA.1, hA.2⟩]
      simp only [updateListGen]
      rw [if_neg (by tauto)]
    · rw [if_neg hA]
      simp only [updateListGen]
      by_cases hB : k = key ∧ f = f0 ∧ v = vOf f0
      · rw [if_pos hB, if_pos ⟨by rw [hB.2.1]; exact List.mem_cons_self _ _, hB.1, by rw [hB.2.1]; exact hB.2.2⟩]
      · rw [if_neg hB, if_neg ?_]
        rintro ⟨hmem, hk, hv⟩
        rcases List.mem_cons.1 hmem with rfl | hmem2
        · exact hB ⟨hk, rfl, hv⟩
        · exact hA ⟨hmem2, hk, hv⟩

theorem putObjectAndIndexes_objects (info : TypeInfo) (st : Store) (s2 : Storable)
    (k : Key) (g : Nat) :
    (putObjectAndIndexes info st s2).objects k g =
      if k = keyOf s2 ∧ g = s2.gen then some s2 else st.objects k g := by
  unfold putObjectAndIndexes writeListGens
  rw [foldl_updateListGen_objects]

theorem putObjectAndIndexes_lastGen (info : TypeInfo) (st : Store) (s2 : Storable) (k : Key) :
    (putObjectAndIndexes info st s2).lastGen k =
      if k = keyOf s2 then some s2.gen else st.lastGen k := by
  unfold putObjectAndIndexes writeListGens
  rw [foldl_updateListGen_lastGen]

theorem putObjectAndIndexes_listGen (info : TypeInfo) (st : Store) (s2 : Storable)
    (hnd : info.indexFields.Nodup) (k : Key) (f : String) (v : String) :
    (putObjectAndIndexes info st s2).listGen k f v =
      if f ∈ info.indexFields ∧ k = keyOf s2 ∧ v = valueOf info f s2 then
        IndexValueList.add (st.listGen k f v) (marshalGen s2.gen)
      else st.listGen k f v := by
  unfold putObjectAndIndexes writeListGens
  rw [foldl_updateListGen_listGen _ _ _ _ _ _ _ hnd]

/-! ## The store consistency invariant

`Consistent` captures the shape every store reachable by default-mode saves
of versioned objects has: the `lastgen` index points at the highest
populated generation (or is absent when no generation exists), and every
`listgen` list holds exactly the marshaled generations whose stored object
carries the matching transformed field value. -/

structure Consistent (types : Types) (st : Store) : Prop where
  lastNone : ∀ k, (types k.kind).versioned = true → st.lastGen k = none →
    ∀ g, st.objects k g = none
  lastSome : ∀ k lg, (types k.kind).versioned = true → st.lastGen k = some lg →
    st.objects k lg ≠ none ∧ ∀ g, lg < g → st.objects k g = none
  listMem : ∀ k f v, (types k.kind).versioned = true → f ∈ (types k.kind).indexFields →
    ∀ g, (marshalGen g ∈ st.listGen k f v ↔
      ∃ o, st.objects k g = some o ∧ valueOf (types k.kind) f o = v)
  listRep : ∀ k f v b, b ∈ st.listGen k f v → ∃ g, b = marshalGen g

theorem consistent_empty (types : Types) : Consistent types emptyStore := by
  refine ⟨fun _ _ _ _ => rfl, fun k lg _ h => by simp [emptyStore] at h, ?_, ?_⟩
  · intro k f v _ _ g
    simp [emptyStore]
  · intro k f v b hb
    simp [emptyStore] at hb

/-- Writing a versioned object into a generation slot at or above which no
object is stored preserves consistency. -/
theorem consistent_put (types : Types) (st : Store) (s2 : Storable)
    (hnd : (types s2.kind).indexFields.Nodup)
    (hv : (types s2.kind).versioned = true)
    (hc : Consistent types st)
    (hfresh : ∀ g, s2.gen ≤ g → st.objects (keyOf s2) g = none) :
    Consistent types (putObjectAndIndexes (types s2.kind) st s2) := by
  have hkind : (keyOf s2).kind = s2.kind := rfl
  constructor
  · -- lastNone
    intro k hv2 hln g
    rw [putObjectAndIndexes_lastGen] at hln
    by_cases hk : k = keyOf s2
    · rw [if_pos hk] at hln; cases hln
    · rw [if_neg hk] at hln
      rw [putObjectAndIndexes_objects, if_neg (by tauto)]
      exact hc.lastNone k hv2 hln g
  · -- lastSome
    intro k lg hv2 hls
    rw [putObjectAndIndexes_lastGen] at hls
    by_cases hk : k = keyOf s2
    · rw [if_pos hk] at hls
      have hlg : lg = s2.gen := by injection hls; omega
      subst hlg
      constructor
      · rw [putObjectAndIndexes_objects, if_pos ⟨hk, rfl⟩]; simp
      · intro g hg
        have hne : ¬(k = keyOf s2 ∧ g = s2.gen) := by rintro ⟨-, h2⟩; omega
        rw [putObjectAndIndexes_objects, if_neg hne]
        rw [hk]; exact hfresh g (Nat.le_of_lt hg)
    · rw [if_neg hk] at hls
      obtain ⟨h1, h2⟩ := hc.lastSome k lg hv2 hls
      constructor
      · rw [putObjectAndIndexes_objects, if_neg (by tauto)]; exact h1
      · intro g hg
        rw [putObjectAndIndexes_objects, if_neg (by tauto)]
        exact h2 g hg
  · -- listMem
    intro k f v hv2 hfidx g
    rw [putObjectAndIndexes_listGen _ _ _ hnd]
    by_cases hcond : f ∈ (types s2.kind).indexFields ∧ k = keyOf s2 ∧ v = valueOf (types s2.kind) f s2
    · obtain ⟨hcf, hck, hcv⟩ := hcond
      subst hck
      rw [if_pos ⟨hcf, rfl, hcv⟩]
      rw [mem_indexValueList_add]
      constructor
      · rintro (hmem | heq)
        · have hold := (hc.listMem (keyOf s2) f v hv2 hfidx g).1 hmem
          obtain ⟨o, ho, hvo⟩ := hold
          by_cases hgg : g = s2.gen
          · subst hgg
            rw [hfresh s2.gen le_rfl] at ho; cases ho
          · exact ⟨o, by rw [putObjectAndIndexes_objects, if_neg (by tauto)]; exact ho, hvo⟩
        · have hg2 : g = s2.gen := marshalGen_injective heq
          subst hg2
          refine ⟨s2, ?_, ?_⟩
          · rw [putObjectAndIndexes_objects, if_pos ⟨rfl, rfl⟩]
          · rw [hkind]; exact hcv.symm
      · rintro ⟨o, ho, hvo⟩
        rw [putObjectAndIndexes_objects] at ho
        by_cases hgg : g = s2.gen
        · exact Or.inr (congrArg marshalGen hgg)
        · rw [if_neg (by tauto)] at ho
          exact Or.inl ((hc.listMem (keyOf s2) f v hv2 hfidx g).2 ⟨o, ho, hvo⟩)
    · rw [if_neg hcond]
      rw [hc.listMem k f v hv2 hfidx g]
      by_cases hko : k = keyOf s2 ∧ g = s2.gen
      · obtain ⟨hk, hg⟩ := hko
        subst hk; subst hg
        constructor
        · rintro ⟨o, ho, _⟩
          rw [hfresh s2.gen le_rfl] at ho; cases ho
        · rintro ⟨o, ho, hvo⟩
          rw [putObjectAndIndexes_objects, if_pos ⟨rfl, rfl⟩] at ho
          injection ho with ho2
          subst ho2
          rw [hkind] at hfidx hvo ⊢
          exact absurd ⟨hfidx, rfl, hvo.symm⟩ hcond
      · constructor
        · rintro ⟨o, ho, hvo⟩
          exact ⟨o, by rw [putObjectAndIndexes_objects, if_neg hko]; exact ho, hvo⟩
        · rintro ⟨o, ho, hvo⟩
          rw [putObjectAndIndexes_objects, if_neg hko] at ho
          exact ⟨o, ho, hvo⟩
  · -- listRep
    intro k f v b hb
    rw [putObjectAndIndexes_listGen _ _ _ hnd] at hb
    by_cases hcond : f ∈ (types s2.kind).indexFields ∧ k = keyOf s2 ∧ v = valueOf (types s2.kind) f s2
    · rw [if_pos hcond, mem_indexValueList_add] at hb
      rcases hb with hb | rfl
      · exact hc.listRep k f v b hb
      · exact ⟨s2.gen, rfl⟩
    · rw [if_neg hcond] at hb
      exact hc.listRep k f v b hb

/-! ## Branch characterizations of `Save` -/

theorem etcdSave_nonversioned (types : Types) (mode : SaveMode) (st : Store) (s : Storable)
    (hv : (types s.kind).versioned = false) :
    etcdSave types mode st s =
      .ok ({ st with objects := fun k g => if k = keyOf s ∧ g = 0 then some s else st.objects k g },
           s) := by
  simp [etcdSave, hv]

theorem etcdSave_dflt_first (types : Types) (st : Store) (s : Storable)
    (hv : (types s.kind).versioned = true)
    (hlg : st.lastGen (keyOf s) = none) :
    etcdSave types .dflt st s =
      .ok (putObjectAndIndexes (types s.kind) st { s with gen := 1 }, { s with gen := 1 }) := by
  simp [etcdSave, hv, hlg]

theorem etcdSave_dflt_corrupt (types : Types) (st : Store) (s : Storable) (lg : Nat)
    (hv : (types s.kind).versioned = true)
    (hlg : st.lastGen (keyOf s) = some lg)
    (hobj : st.objects (keyOf s) lg = none) :
    etcdSave types .dflt st s =
      .error "last gen index seems to be corrupted: generation does not exist" := by
  simp [etcdSave, hv, hlg, hobj]

theorem etcdSave_dflt_noop (types : Types) (st : Store) (s : Storable) (lg : Nat)
    (prev : Storable)
    (hv : (types s.kind).versioned = true)
    (hlg : st.lastGen (keyOf s) = some lg)
    (hobj : st.objects (keyOf s) lg = some prev)
    (heq : prev = s) :
    etcdSave types .dflt st s = .ok (st, { s with gen := lg }) := by
  simp [etcdSave, hv, hlg, hobj, heq]

theorem etcdSave_dflt_next (types : Types) (st : Store) (s : Storable) (lg : Nat)
    (prev : Storable)
    (hv : (types s.kind).versioned = true)
    (hlg : st.lastGen (keyOf s) = some lg)
    (hobj : st.objects (keyOf s) lg = some prev)
    (hne : prev ≠ s) :
    etcdSave types .dflt st s =
      .ok (putObjectAndIndexes (types s.kind) st { s with gen := lg + 1 },
           { s with gen := lg + 1 }) := by
  simp [etcdSave, hv, hlg, hobj, hne]

theorem etcdSave_forceGen_zero (types : Types) (st : Store) (s : Storable)
    (hv : (types s.kind).versioned = true)
    (hz : s.gen = 0) :
    etcdSave types .replaceOrForceGen st s =
      .error "error while saving object with replaceOrForceGen option but with empty generation" := by
  simp [etcdSave, hv, hz]

theorem etcdSave_forceGen (types : Types) (st : Store) (s : Storable)
    (hv : (types s.kind).versioned = true)
    (hz : s.gen ≠ 0) :
    etcdSave types .replaceOrForceGen st s =
      .ok (putObjectAndIndexes (types s.kind) st s, s) := by
  simp [etcdSave, hv, hz]

/-- Saving in default mode an object that was just written by
`putObjectAndIndexes` is a no-op returning the same store and object. -/
theorem etcdSave_after_put (types : Types) (st : Store) (s2 : Storable)
    (hv : (types s2.kind).versioned = true) :
    etcdSave types .dflt (putObjectAndIndexes (types s2.kind) st s2) s2 =
      .ok (putObjectAndIndexes (types s2.kind) st s2, s2) := by
  have hlg : (putObjectAndIndexes (types s2.kind) st s2).lastGen (keyOf s2) = some s2.gen := by
    rw [putObjectAndIndexes_lastGen, if_pos rfl]
  have hobj : (putObjectAndIndexes (types s2.kind) st s2).objects (keyOf s2) s2.gen = some s2 := by
    rw [putObjectAndIndexes_objects, if_pos ⟨rfl, rfl⟩]
  rw [etcdSave_dflt_noop types _ s2 s2.gen s2 hv hlg hobj rfl]

/-- C2: saving the same object twice in default mode creates at most one
new generation: whenever the first `Save` succeeds, re-saving the object it
returned leaves the store untouched and returns the object with the same
generation.  The hypothesis `hwf` states that in the versioned key space a
stored object carries the generation of its slot, which holds for every
store produced by the save workflow. -/
theorem save_save_idempotent (types : Types) (st st1 : Store) (s s1 : Storable)
    (hwf : ∀ k g o, (types k.kind).versioned = true → st.objects k g = some o → o.gen = g)
    (h : etcdSave types .dflt st s = .ok (st1, s1)) :
    etcdSave types .dflt st1 s1 = .ok (st1, s1) := by
  by_cases hv : (types s.kind).versioned = true
  · rcases hlg : st.lastGen (keyOf s) with _ | lg
    · rw [etcdSave_dflt_first types st s hv hlg] at h
      injection h with h2
      obtain ⟨h3, h4⟩ := Prod.mk.inj h2
      subst h3; subst h4
      exact etcdSave_after_put types st { s with gen := 1 } hv
    · rcases hobj : st.objects (keyOf s) lg with _ | prev
      · rw [etcdSave_dflt_corrupt types st s lg hv hlg hobj] at h
        cases h
      · by_cases heq : prev = s
        · rw [etcdSave_dflt_noop types st s lg prev hv hlg hobj heq] at h
          injection h with h2
          obtain ⟨h3, h4⟩ := Prod.mk.inj h2
          subst h3; subst h4
          have hpg : prev.gen = lg := hwf (keyOf s) lg prev hv hobj
          have hsg : s.gen = lg := by rw [← heq]; exact hpg
          have hss : ({ s with gen := lg } : Storable) = s := by rw [← hsg]
          rw [hss]
          rw [etcdSave_dflt_noop types st s lg prev hv hlg hobj heq, hss]
        · rw [etcdSave_dflt_next types st s lg prev hv hlg hobj heq] at h
          injection h with h2
          obtain ⟨h3, h4⟩ := Prod.mk.inj h2
          subst h3; subst h4
          exact etcdSave_after_put types st { s with gen := lg + 1 } hv
  · have hv2 : (types s.kind).versioned = false := by
      cases hb : (types s.kind).versioned
      · rfl
      · exact absurd hb hv
    rw [etcdSave_nonversioned types .dflt st s hv2] at h
    injection h with h2
    obtain ⟨h3, h4⟩ := Prod.mk.inj h2
    subst h3; subst h4
    rw [etcdSave_nonversioned types .dflt _ s hv2]
    refine congrArg _ (congrArg (fun x => (x, s)) (store_ext ?_ rfl rfl))
    funext k g
    by_cases hkg : k = keyOf s ∧ g = 0
    · simp only [if_pos hkg]
    · simp only [if_neg hkg]

/-! Concrete fixtures shared by the witnesses below: a catalog with a single
versioned kind carrying one indexed field `f` with the identity transform. -/

/-- Witness catalog: every kind is versioned with indexed field `f`. -/
def typesW : Types := fun _ => ⟨true, ["f"], fun _ v => v⟩

/-- Witness object: generation 0 (unset), field `f = 1`. -/
def sW : Storable := ⟨"a", "b", "c", 0, [("f", "1")]⟩

/-- The object `sW` as saved at generation 1. -/
def sW1 : Storable := { sW with gen := 1 }

/-- The store after the first save of `sW` into the empty store. -/
def stW1 : Store := putObjectAndIndexes (typesW sW.kind) emptyStore sW1

/-- Witness for C2 at a concrete input: the first save of `sW` into the
empty store succeeds, and re-saving its result is the identity. -/
theorem save_save_idempotent_witness :
    etcdSave typesW .dflt emptyStore sW = .ok (stW1, sW1) ∧
    etcdSave typesW .dflt stW1 sW1 = .ok (stW1, sW1) :=
  ⟨rfl,
   save_save_idempotent typesW emptyStore stW1 sW sW1
     (fun _ _ _ _ h => Option.noConfusion h) rfl⟩

/-- C5: a default-mode save of a versioned object whose `lastgen` index
entry is absent assigns generation 1 and writes the object at
`/object/<key>@1`. -/
theorem save_first_generation (types : Types) (st : Store) (s : Storable)
    (hv : (types s.kind).versioned = true)
    (habs : st.lastGen (keyOf s) = none) :
    ∃ st2, etcdSave types .dflt st s = .ok (st2, { s with gen := 1 }) ∧
      st2.objects (keyOf s) 1 = some { s with gen := 1 } := by
  refine ⟨_, etcdSave_dflt_first types st s hv habs, ?_⟩
  rw [putObjectAndIndexes_objects, if_pos ⟨rfl, rfl⟩]

/-- Witness for C5 at a concrete input. -/
theorem save_first_generation_witness :
    ∃ st2, etcdSave typesW .dflt emptyStore sW = .ok (st2, { sW with gen := 1 }) ∧
      st2.objects (keyOf sW) 1 = some { sW with gen := 1 } :=
  save_first_generation typesW emptyStore sW rfl rfl

theorem putObjectAndIndexes_lastGen_self (info : TypeInfo) (st : Store) (s2 : Storable)
    (k : Key) (hk : k = keyOf s2) :
    (putObjectAndIndexes info st s2).lastGen k = some s2.gen := by
  rw [putObjectAndIndexes_lastGen, if_pos hk]

theorem putObjectAndIndexes_objects_self (info : TypeInfo) (st : Store) (s2 : Storable)
    (k : Key) (g : Nat) (hk : k = keyOf s2) (hg : g = s2.gen) :
    (putObjectAndIndexes info st s2).objects k g = some s2 := by
  rw [putObjectAndIndexes_objects, if_pos ⟨hk, hg⟩]

theorem putObjectAndIndexes_listGen_mono (info : TypeInfo) (st : Store) (s2 : Storable)
    (hnd : info.indexFields.Nodup) (k : Key) (f v : String) (b : ByteStr)
    (hb : b ∈ st.listGen k f v) :
    b ∈ (putObjectAndIndexes info st s2).listGen k f v := by
  rw [putObjectAndIndexes_listGen _ _ _ hnd]
  split
  · exact mem_indexValueList_add.2 (Or.inl hb)
  · exact hb

theorem putObjectAndIndexes_listGen_self_mem (info : TypeInfo) (st : Store) (s2 : Storable)
    (hnd : info.indexFields.Nodup) (f : String) (hf : f ∈ info.indexFields) :
    marshalGen s2.gen ∈
      (putObjectAndIndexes info st s2).listGen (keyOf s2) f (valueOf info f s2) := by
  rw [putObjectAndIndexes_listGen _ _ _ hnd, if_pos ⟨hf, rfl, rfl⟩]
  exact mem_indexValueList_add.2 (Or.inr rfl)

/-- C1 (amended): in default mode with an existing last generation, `Save`
reads the stored object at that generation and compares it with the new
object via `reflect.DeepEqual`, which compares every field, the generation
field included.  Only when the objects are fully equal (so in particular
the new object already carries the last generation) does `Save` return the
last generation without writes; any difference — including a difference in
the generation field alone — assigns `lastGen+1` and writes. -/
theorem save_deep_compare_includes_generation (types : Types) (st : Store) (s : Storable)
    (lg : Nat) (prev : Storable)
    (hv : (types s.kind).versioned = true)
    (hlg : st.lastGen (keyOf s) = some lg)
    (hobj : st.objects (keyOf s) lg = some prev) :
    (prev = s → etcdSave types .dflt st s = .ok (st, { s with gen := lg })) ∧
    (prev ≠ s →
      ∃ st2, etcdSave types .dflt st s = .ok (st2, { s with gen := lg + 1 }) ∧
        st2.objects (keyOf s) (lg + 1) = some { s with gen := lg + 1 } ∧
        st2.lastGen (keyOf s) = some (lg + 1)) := by
  constructor
  · intro heq
    exact etcdSave_dflt_noop types st s lg prev hv hlg hobj heq
  · intro hne
    refine ⟨_, etcdSave_dflt_next types st s lg prev hv hlg hobj hne, ?_, ?_⟩
    · exact putObjectAndIndexes_objects_self _ st _ _ _ rfl rfl
    · exact putObjectAndIndexes_lastGen_self _ st _ _ rfl

/-- The stored object for the C1 counterexample: generation 1, `f = 1`. -/
def prevC1 : Storable := ⟨"a", "b", "c", 1, [("f", "1")]⟩

/-- A store holding `prevC1` at generation 1 together with its indexes. -/
def stC1 : Store where
  objects := fun k g => if k = keyOf prevC1 ∧ g = 1 then some prevC1 else none
  lastGen := fun k => if k = keyOf prevC1 then some 1 else none
  listGen := fun k f v =>
    if k = keyOf prevC1 ∧ f = "f" ∧ v = "1" then [marshalGen 1] else []

/-- C1 counterexample: `sW` equals the stored object at the last generation
up to the generation field (first conjunct), the last generation is 1
(second and third conjunct), yet `Save` returns generation 2 and writes a
new object at `/object/<key>@2` — the claimed behaviour (compare ignoring
the generation, return generation 1 with no writes) does not hold. -/
theorem save_gen_ignoring_compare_refuted :
    ({ sW with gen := prevC1.gen } = prevC1) ∧
    stC1.lastGen (keyOf sW) = some 1 ∧
    stC1.objects (keyOf sW) 1 = some prevC1 ∧
    (etcdSave typesW .dflt stC1 sW).toOption.map (fun p => p.2.gen) = some 2 ∧
    (etcdSave typesW .dflt stC1 sW).toOption.map (fun p => p.1.objects (keyOf sW) 2) =
      some (some { sW with gen := 2 }) :=
  ⟨rfl, rfl, rfl, rfl, rfl⟩

/-- Witness for the amended C1 at a concrete input (the differing branch). -/
theorem save_deep_compare_includes_generation_witness :
    ∃ st2, etcdSave typesW .dflt stC1 sW = .ok (st2, { sW with gen := 2 }) ∧
      st2.objects (keyOf sW) 2 = some { sW with gen := 2 } ∧
      st2.lastGen (keyOf sW) = some 2 :=
  (save_deep_compare_includes_generation typesW stC1 sW 1 prevC1 rfl rfl rfl).2
    (by decide)

/-- C3 (amended): a successful default-mode save of a versioned object sets
the `lastgen` index to the returned generation and puts the returned
generation into the `listgen` entry of every indexed field under the
transformed value the object carries; no generation is removed from any
`listgen` entry (removal of superseded entries is an unimplemented `todo`
in the source), and index consistency is preserved: every `listgen` list
holds exactly the marshaled generations whose stored object carries that
transformed field value. -/
theorem save_index_maintenance (types : Types) (st st2 : Store) (s s2 : Storable)
    (hnd : (types s.kind).indexFields.Nodup)
    (hv : (types s.kind).versioned = true)
    (hc : Consistent types st)
    (hs : etcdSave types .dflt st s = .ok (st2, s2)) :
    st2.lastGen (keyOf s) = some s2.gen ∧
    (∀ f ∈ (types s.kind).indexFields,
      marshalGen s2.gen ∈ st2.listGen (keyOf s) f (valueOf (types s.kind) f s2)) ∧
    (∀ k f v b, b ∈ st.listGen k f v → b ∈ st2.listGen k f v) ∧
    Consistent types st2 := by
  rcases hlg : st.lastGen (keyOf s) with _ | lg
  · -- first generation
    rw [etcdSave_dflt_first types st s hv hlg] at hs
    injection hs with h2
    obtain ⟨h3, h4⟩ := Prod.mk.inj h2
    subst h3; subst h4
    have hfresh : ∀ g, (1 : Nat) ≤ g → st.objects (keyOf s) g = none :=
      fun g _ => hc.lastNone (keyOf s) hv hlg g
    refine ⟨?_, ?_, ?_, ?_⟩
    · exact putObjectAndIndexes_lastGen_self _ st _ _ rfl
    · intro f hf
      exact putObjectAndIndexes_listGen_self_mem _ st { s with gen := 1 } hnd f hf
    · intro k f v b hb
      exact putObjectAndIndexes_listGen_mono _ st _ hnd k f v b hb
    · exact consistent_put types st { s with gen := 1 } hnd hv hc hfresh
  · rcases hobj : st.objects (keyOf s) lg with _ | prev
    · rw [etcdSave_dflt_corrupt types st s lg hv hlg hobj] at hs
      cases hs
    · by_cases heq : prev = s
      · -- no-op branch: no writes
        rw [etcdSave_dflt_noop types st s lg prev hv hlg hobj heq] at hs
        injection hs with h2
        obtain ⟨h3, h4⟩ := Prod.mk.inj h2
        subst h3; subst h4
        refine ⟨hlg, ?_, fun _ _ _ _ hb => hb, hc⟩
        intro f hf
        rw [hc.listMem (keyOf s) f _ hv hf lg]
        refine ⟨prev, hobj, ?_⟩
        rw [heq]
        rfl
      · -- new generation lg+1
        rw [etcdSave_dflt_next types st s lg prev hv hlg hobj heq] at hs
        injection hs with h2
        obtain ⟨h3, h4⟩ := Prod.mk.inj h2
        subst h3; subst h4
        have hfresh : ∀ g, lg + 1 ≤ g → st.objects (keyOf s) g = none :=
          fun g hg => (hc.lastSome (keyOf s) lg hv hlg).2 g (by omega)
        refine ⟨?_, ?_, ?_, ?_⟩
        · exact putObjectAndIndexes_lastGen_self _ st _ _ rfl
        · intro f hf
          exact putObjectAndIndexes_listGen_self_mem _ st { s with gen := lg + 1 } hnd f hf
        · intro k f v b hb
          exact putObjectAndIndexes_listGen_mono _ st _ hnd k f v b hb
        · exact consistent_put types st { s with gen := lg + 1 } hnd hv hc hfresh

/-- The object of the C3 counterexample, re-saved with `f` changed to 3. -/
def sC3 : Storable := ⟨"a", "b", "c", 0, [("f", "3")]⟩

/-- Save `sW` (`f = 1`) into the empty store, then save `sC3` (`f = 3`). -/
def chainC3 : Except String (Store × Storable) :=
  (etcdSave typesW .dflt emptyStore sW).bind fun p => etcdSave typesW .dflt p.1 sC3

/-- C3 counterexample: the second save changes the indexed field `f` from 1
to 3 and creates generation 2, yet generation 1 is not removed from the
`listgen` entry under the old value `f=1` — the entry still reads `[1]`
afterwards (which is what keeps the lists consistent with the stored
objects, since the object at generation 1 still carries `f = 1`). -/
theorem save_no_index_removal_on_value_change :
    (chainC3.toOption.map fun p => p.2.gen) = some 2 ∧
    (chainC3.toOption.map fun p => p.1.objects (keyOf sW) 1) = some (some sW1) ∧
    (chainC3.toOption.map fun p => p.1.listGen (keyOf sW) "f" "1") = some [marshalGen 1] ∧
    (chainC3.toOption.map fun p => p.1.listGen (keyOf sW) "f" "3") = some [marshalGen 2] :=
  ⟨rfl, rfl, rfl, rfl⟩

/-- Witness for the amended C3 at a concrete input. -/
theorem save_index_maintenance_witness :
    stW1.lastGen (keyOf sW) = some sW1.gen ∧
    marshalGen sW1.gen ∈ stW1.listGen (keyOf sW) "f" (valueOf (typesW sW.kind) "f" sW1) ∧
    Consistent typesW stW1 := by
  have h := save_index_maintenance typesW emptyStore stW1 sW sW1
    (by decide) rfl (consistent_empty typesW) rfl
  exact ⟨h.1, h.2.1 "f" (by decide), h.2.2.2⟩

/-- The object of the C4 evaluation: caller generation 1, `f` changed to 3. -/
def sC4 : Storable := ⟨"a", "b", "c", 1, [("f", "3")]⟩

/-- C4: `ReplaceOrForceGen` uses the caller generation unchanged (third
conjunct) and fails on a zero generation (fourth conjunct), and it does
overwrite the object stored at that generation (first conjunct) — but the
old object is not removed from the indexes first: the `listgen` entry under
the old value `f=1` still holds generation 1 (second conjunct) even though
the object now stored at generation 1 carries `f = 3`, leaving a stale
index entry.  In the source the read-back of the old object shadows the
outer `prevObj` and index removal is an unimplemented `todo`. -/
theorem forceGen_keeps_stale_index_entries :
    (etcdSave typesW .replaceOrForceGen stW1 sC4).toOption.map
        (fun p => p.1.objects (keyOf sW) 1) = some (some sC4) ∧
    (etcdSave typesW .replaceOrForceGen stW1 sC4).toOption.map
        (fun p => p.1.listGen (keyOf sW) "f" "1") = some [marshalGen 1] ∧
    (etcdSave typesW .replaceOrForceGen stW1 sC4).toOption.map
        (fun p => p.2.gen) = some 1 ∧
    etcdSave typesW .replaceOrForceGen stW1 { sC4 with gen := 0 } =
      .error "error while saving object with replaceOrForceGen option but with empty generation" :=
  ⟨rfl, rfl, rfl, rfl⟩

/-- C6: `Remove` on a sorted list where the value is absent does not leave
the list unchanged — any element that compares not-below the value is in
range at the found position and gets deleted.  Here removing `[49]` from
the sorted one-element list `[[50]]` (which does not contain `[49]`)
deletes `[50]`.  The last conjunct shows the present-value case works. -/
theorem indexValueList_remove_absent_deletes :
    List.Pairwise (fun a b => bytesCompare a b = .lt) [[50]] ∧
    ([49] : ByteStr) ∉ ([[50]] : List ByteStr) ∧
    IndexValueList.remove [[50]] [49] = [] ∧
    IndexValueList.remove [[49], [50]] [49] = [[50]] := by
  refine ⟨?_, ?_, rfl, rfl⟩ <;> decide

/-! ## Round trip of the object codec (caller: `FileLoader.LoadObjects`)

`FileLoader.LoadObjects` normalizes the loaded objects by running
`MarshalMany` followed by `UnmarshalOneOrMany` so that test data matches
what a store round trip would produce.  The codec implementation is not
part of the given sources; it is modelled from the specification: a
textual key-value document per object with a top-level `kind`
discriminator, sequences as lists of documents, deterministic key order on
serialization, and empty fields preserved (no omitempty semantics). -/

/-- Modelled from the spec: a policy object as the codec sees it — kind
discriminator, namespace, name, and the remaining payload entries with
empty values preserved. -/
structure LangObj where
  kind : String
  ns : String
  name : String
  payload : List (String × String)
deriving DecidableEq

/-- Modelled from the spec: one marshaled document — the `kind`
discriminator plus the key-value entries in their deterministic
serialization order, empty values included. -/
structure EncDoc where
  kindField : String
  entries : List (String × String)
deriving DecidableEq

/-- Modelled from the spec: marshal one object into one document; every
field is emitted, empty or not. -/
def marshalOne (o : LangObj) : EncDoc :=
  ⟨o.kind, ("namespace", o.ns) :: ("name", o.name) :: o.payload⟩

/-- Modelled from the spec: `MarshalMany` — a sequence of documents in list
syntax. -/
def marshalMany (objs : List LangObj) : List EncDoc := objs.map marshalOne

/-- Modelled from the spec: decode one document, dispatching on the `kind`
discriminator against the catalog of recognized kinds; an unrecognized
kind is an `UnknownKind` failure. -/
def unmarshalOne (catalog : List String) (d : EncDoc) : Except String LangObj :=
  if d.kindField ∈ catalog then
    match d.entries with
    | (k1, v1) :: (k2, v2) :: rest =>
      if k1 = "namespace" ∧ k2 = "name" then .ok ⟨d.kindField, v1, v2, rest⟩
      else .error "malformed document"
    | _ => .error "malformed document"
  else .error "unknown kind"

/-- Modelled from the spec: `UnmarshalOneOrMany` over a document sequence,
failing on the first undecodable document. -/
def unmarshalOneOrMany (catalog : List String) : List EncDoc → Except String (List LangObj)
  | [] => .ok []
  | d :: ds =>
    match unmarshalOne catalog d, unmarshalOneOrMany catalog ds with
    | .ok o, .ok os => .ok (o :: os)
    | .error e, _ => .error e
    | .ok _, .error e => .error e

theorem unmarshalOne_marshalOne (catalog : List String) (o : LangObj)
    (ho : o.kind ∈ catalog) : unmarshalOne catalog (marshalOne o) = .ok o := by
  simp [unmarshalOne, marshalOne, ho]

/-- C7: marshaling a list of policy objects with `MarshalMany` and
unmarshaling the produced documents with `UnmarshalOneOrMany` yields the
original list, provided every object is of a recognized kind; empty fields
are preserved by `marshalOne`, which is what makes the round trip stable. -/
theorem marshalMany_unmarshal_round_trip (catalog : List String) (objs : List LangObj)
    (hk : ∀ o ∈ objs, o.kind ∈ catalog) :
    unmarshalOneOrMany catalog (marshalMany objs) = .ok objs := by
  induction objs with
  | nil => rfl
  | cons o rest ih =>
    have ho : o.kind ∈ catalog := hk o (List.mem_cons_self _ _)
    have hrest := ih (fun x hx => hk x (List.mem_cons_of_mem _ hx))
    simp only [marshalMany, List.map_cons]
    rw [unmarshalOneOrMany, unmarshalOne_marshalOne catalog o ho]
    rw [show marshalMany rest = rest.map marshalOne from rfl] at hrest
    rw [hrest]

/-- The catalog the test policy loader builds: Service, Contract, Cluster,
Rule and Dependency objects. -/
def catalogW : List String := ["service", "contract", "cluster", "rule", "dependency"]

/-- Concrete objects for the C7 witness; one carries an empty field. -/
def objsW : List LangObj :=
  [⟨"service", "main", "kafka", [("replicas", "1"), ("description", "")]⟩,
   ⟨"cluster", "platform", "east", []⟩]

/-- Witness for C7 at a concrete input. -/
theorem marshalMany_unmarshal_round_trip_witness :
    unmarshalOneOrMany catalogW (marshalMany objsW) = .ok objsW :=
  marshalMany_unmarshal_round_trip catalogW objsW (by decide)

/-! ## `Find` result-shape validation (package `etcd`) -/

/-- A Go `reflect.Type`, as far as the `Find` validation inspects it. -/
inductive RType
  | named (n : String)
  | ptr (t : RType)
  | slice (t : RType)
deriving DecidableEq

/-- The reflection data `Find` reads: `reflect.TypeOf(info.New())` is a
pointer to the struct type of the kind. -/
structure FindTypeInfo where
  newType : RType

/-- `store.FindOpts`, as far as the branch dispatch reads them. -/
structure FindOpts where
  keyPref : String
  key : String
  fieldEqName : String

/-- The query branch `Find` dispatches to; all three are stubs in the
source (`findByKeyPrefix` and `findByKey` return nothing, `findByPredicate`
emits two freshly constructed objects) and none performs store accesses. -/
inductive FindBranch
  | byKeyPref
  | byKey
  | byPredicate
deriving DecidableEq

/-- An access against the underlying key-value store. -/
inductive StoreOp
  | get (k : String)
  | range (k : String)
deriving DecidableEq

/-- The branch selection of `Find`. -/
def branchOf (opts : FindOpts) : FindBranch :=
  if opts.keyPref ≠ "" then .byKeyPref
  else if opts.key ≠ "" ∧ opts.fieldEqName = "" then .byKey
  else .byPredicate

/-- `etcdStore.Find`: validate the result container against
`reflect.TypeOf(info.New())` — it must be either that pointer type or a
pointer to a slice of it — and only then dispatch to one of the three
query branches.  The first component records the store operations
performed (none here: validation precedes any store access and the three
branches are stubs); the second is the shape (`false` = single,
`true` = sequence) and chosen branch, or the shape-mismatch error. -/
def etcdFind (info : FindTypeInfo) (resultType : RType) (opts : FindOpts) :
    List StoreOp × Except String (Bool × FindBranch) :=
  let resultTypeSingle := info.newType
  let resultTypeList := RType.ptr (.slice resultTypeSingle)
  if resultType = resultTypeSingle then ([], .ok (false, branchOf opts))
  else if resultType = resultTypeList then ([], .ok (true, branchOf opts))
  else ([], .error "result should be a pointer to the type or a pointer to a slice of it")

theorem rtype_ptr_slice_ne (t : RType) : RType.ptr (.slice t) ≠ t := by
  intro h
  have h2 := congrArg (fun x => sizeOf x) h
  simp at h2
  omega

/-- C9: the result container of `Find` must be a pointer to a single
object of the kind or a pointer to a slice of such objects (first
conjunct); any other result type makes `Find` fail with the
shape-mismatch error having performed no store access (second conjunct). -/
theorem find_result_shape_validation (info : FindTypeInfo) (opts : FindOpts) :
    (∀ rt, rt = info.newType ∨ rt = RType.ptr (.slice info.newType) →
      ∃ shape, etcdFind info rt opts = ([], .ok shape)) ∧
    (∀ rt, rt ≠ info.newType → rt ≠ RType.ptr (.slice info.newType) →
      etcdFind info rt opts =
        ([], .error "result should be a pointer to the type or a pointer to a slice of it")) := by
  constructor
  · rintro rt (rfl | rfl)
    · exact ⟨(false, branchOf opts), by simp [etcdFind]⟩
    · refine ⟨(true, branchOf opts), ?_⟩
      simp only [etcdFind]
      rw [if_neg (rtype_ptr_slice_ne info.newType)]
      simp
  · intro rt h1 h2
    simp only [etcdFind]
    rw [if_neg h1, if_neg h2]

/-- Witness for C9 at a concrete input: the single-object container is
accepted, a bare struct type (not a pointer) is rejected with no store
access. -/
theorem find_result_shape_validation_witness :
    (∃ shape, etcdFind ⟨RType.ptr (.named "cluster")⟩ (RType.ptr (.named "cluster"))
        ⟨"", "p/cluster/east", ""⟩ = ([], .ok shape)) ∧
    etcdFind ⟨RType.ptr (.named "cluster")⟩ (RType.named "cluster")
        ⟨"", "p/cluster/east", ""⟩ =
      ([], .error "result should be a pointer to the type or a pointer to a slice of it") :=
  ⟨(find_result_shape_validation ⟨RType.ptr (.named "cluster")⟩ ⟨"", "p/cluster/east", ""⟩).1
      (RType.ptr (.named "cluster")) (Or.inl rfl),
   (find_result_shape_validation ⟨RType.ptr (.named "cluster")⟩ ⟨"", "p/cluster/east", ""⟩).2
      (RType.named "cluster") (by decide) (by decide)⟩

/-! ## API handlers (package `api`)

`handlePolicyUpdate` sorts the submitted objects with
`sort.Sort(apiObjectSorter(objects))` (weight 0 for ACL rules, 1 for
everything else, so ACL rules come first) and for each object runs the
ACL check `View(user).ManageObject` and then `AddObject`, panicking on any
error.  `handlePolicyDelete` sorts with `sort.Sort(sort.Reverse(...))`
(ACL rules last) and runs the check and then `RemoveObject`.  Go`s
`sort.Sort` is an unstable sort returning some permutation ordered by the
comparator; it is determinized here as an insertion sort. -/

/-- A `lang.Base` policy object, as far as the handlers inspect it. -/
structure LangBase where
  kind : String
  ns : String
  name : String
deriving DecidableEq

/-- `lang.TypeACLRule.Kind`. -/
def aclRuleKind : String := "aclrule"

/-- `apiObjectSorter.Weight`: ACL rules weigh 0 and come first, all other
objects weigh 1. -/
def weight (o : LangBase) : Nat := if o.kind = aclRuleKind then 0 else 1

/-- The order of `sort.Sort(apiObjectSorter(objects))`. -/
def updLE (a b : LangBase) : Prop := weight a ≤ weight b

/-- The order of `sort.Sort(sort.Reverse(apiObjectSorter(objects)))`. -/
def delLE (a b : LangBase) : Prop := weight b ≤ weight a

instance : DecidableRel updLE := fun a b => Nat.decLe (weight a) (weight b)

instance : DecidableRel delLE := fun a b => Nat.decLe (weight b) (weight a)

instance : IsTotal LangBase updLE := ⟨fun a b => Nat.le_total (weight a) (weight b)⟩

instance : IsTrans LangBase updLE := ⟨fun _ _ _ h1 h2 => Nat.le_trans h1 h2⟩

instance : IsTotal LangBase delLE := ⟨fun a b => Nat.le_total (weight b) (weight a)⟩

instance : IsTrans LangBase delLE := ⟨fun _ _ _ h1 h2 => Nat.le_trans h2 h1⟩

/-- The processing order of the update handler. -/
def sortForUpdate (objs : List LangBase) : List LangBase := List.insertionSort updLE objs

/-- The processing order of the delete handler. -/
def sortForDelete (objs : List LangBase) : List LangBase := List.insertionSort delLE objs

/-- Observable steps of the handler loops. -/
inductive PolicyOp
  | check (o : LangBase)
  | addObj (o : LangBase)
  | removeObj (o : LangBase)
deriving DecidableEq

/-- The in-memory policy content, as far as the handlers mutate it. -/
abbrev Policy := List LangBase

/-- Modelled from the spec: `Policy.RemoveObject` removes by
`(namespace, kind, name)` and is idempotent (the container implementation
is not among the given sources). -/
def removeObject (p : Policy) (o : LangBase) : Policy :=
  p.filter (fun x => ¬(x.ns = o.ns ∧ x.kind = o.kind ∧ x.name = o.name))

/-- The loop of `handlePolicyUpdate` over the sorted objects: for each
object run `ManageObject` (`manageOk`) and then `AddObject` (append; the
failure predicate `addOk` models its conflict error, since the container
implementation is not among the given sources).  Any error aborts the
handler (it panics), modelled as `none`.  The trace records checks and
adds in execution order. -/
def addLoop (manageOk addOk : LangBase → Bool) (p : Policy) :
    List LangBase → Option (Policy × List PolicyOp)
  | [] => some (p, [])
  | o :: rest =>
    if manageOk o then
      if addOk o then
        (addLoop manageOk addOk (p ++ [o]) rest).map fun r =>
          (r.1, .check o :: .addObj o :: r.2)
      else none
    else none

/-- The loop of `handlePolicyDelete` over the reverse-sorted objects:
`ManageObject` check, then `RemoveObject` (which cannot fail). -/
def removeLoop (manageOk : LangBase → Bool) (p : Policy) :
    List LangBase → Option (Policy × List PolicyOp)
  | [] => some (p, [])
  | o :: rest =>
    if manageOk o then
      (removeLoop manageOk (removeObject p o) rest).map fun r =>
        (r.1, .check o :: .removeObj o :: r.2)
    else none

/-- The trace the update loop produces: a `ManageObject` check immediately
before each add, object by object. -/
def updateTrace : List LangBase → List PolicyOp
  | [] => []
  | o :: rest => .check o :: .addObj o :: updateTrace rest

/-- The trace the delete loop produces. -/
def deleteTrace : List LangBase → List PolicyOp
  | [] => []
  | o :: rest => .check o :: .removeObj o :: deleteTrace rest

theorem addLoop_spec (manageOk addOk : LangBase → Bool) :
    ∀ (l : List LangBase) (p q : Policy) (t : List PolicyOp),
      addLoop manageOk addOk p l = some (q, t) →
      t = updateTrace l ∧ ∀ o ∈ l, manageOk o = true ∧ addOk o = true := by
  intro l
  induction l with
  | nil =>
    intro p q t h
    rw [addLoop] at h
    injection h with h2
    obtain ⟨h3, h4⟩ := Prod.mk.inj h2
    exact ⟨h4.symm, by intro o ho; cases ho⟩
  | cons o rest ih =>
    intro p q t h
    rw [addLoop] at h
    rcases hm : manageOk o with _ | _
    · rw [hm] at h; simp at h
    · rw [hm] at h
      rcases ha : addOk o with _ | _
      · rw [ha] at h; simp at h
      · rw [ha] at h
        simp only [if_pos] at h
        rcases haux : addLoop manageOk addOk (p ++ [o]) rest with _ | r
        · rw [haux] at h; simp at h
        · rw [haux] at h
          simp only [Option.map_some'] at h
          injection h with h2
          obtain ⟨h3, h4⟩ := Prod.mk.inj h2
          obtain ⟨ht, hall⟩ := ih (p ++ [o]) r.1 r.2 (by rw [haux])
          constructor
          · rw [← h4, ht, updateTrace]
          · intro x hx
            rcases List.mem_cons.1 hx with rfl | hx2
            · exact ⟨hm, ha⟩
            · exact hall x hx2

theorem removeLoop_spec (manageOk : LangBase → Bool) :
    ∀ (l : List LangBase) (p q : Policy) (t : List PolicyOp),
      removeLoop manageOk p l = some (q, t) →
      t = deleteTrace l ∧ ∀ o ∈ l, manageOk o = true := by
  intro l
  induction l with
  | nil =>
    intro p q t h
    rw [removeLoop] at h
    injection h with h2
    obtain ⟨h3, h4⟩ := Prod.mk.inj h2
    exact ⟨h4.symm, by intro o ho; cases ho⟩
  | cons o rest ih =>
    intro p q t h
    rw [removeLoop] at h
    rcases hm : manageOk o with _ | _
    · rw [hm] at h; simp at h
    · rw [hm] at h
      simp only [if_pos] at h
      rcases haux : removeLoop manageOk (removeObject p o) rest with _ | r
      · rw [haux] at h; simp at h
      · rw [haux] at h
        simp only [Option.map_some'] at h
        injection h with h2
        obtain ⟨h3, h4⟩ := Prod.mk.inj h2
        obtain ⟨ht, hall⟩ := ih (removeObject p o) r.1 r.2 (by rw [haux])
        constructor
        · rw [← h4, ht, deleteTrace]
        · intro x hx
          rcases List.mem_cons.1 hx with rfl | hx2
          · exact hm
          · exact hall x hx2

theorem weight_zero_iff (o : LangBase) : weight o = 0 ↔ o.kind = aclRuleKind := by
  unfold weight
  split <;> simp_all

/-- In the list, every ACL rule precedes every other object: whenever a
later element is an ACL rule, so is each earlier one. -/
def aclFirst (l : List LangBase) : Prop :=
  l.Pairwise (fun a b => b.kind = aclRuleKind → a.kind = aclRuleKind)

/-- In the list, every ACL rule follows every other object. -/
def aclLast (l : List LangBase) : Prop :=
  l.Pairwise (fun a b => a.kind = aclRuleKind → b.kind = aclRuleKind)

theorem aclFirst_sortForUpdate (objs : List LangBase) : aclFirst (sortForUpdate objs) := by
  have h := List.sorted_insertionSort updLE objs
  refine List.Pairwise.imp ?_ h
  intro a b hab hbk
  have hb0 : weight b = 0 := (weight_zero_iff b).2 hbk
  have ha0 : weight a = 0 := by
    unfold updLE at hab
    omega
  exact (weight_zero_iff a).1 ha0

theorem aclLast_sortForDelete (objs : List LangBase) : aclLast (sortForDelete objs) := by
  have h := List.sorted_insertionSort delLE objs
  refine List.Pairwise.imp ?_ h
  intro a b hab hak
  have ha0 : weight a = 0 := (weight_zero_iff a).2 hak
  have hb0 : weight b = 0 := by
    unfold delLE at hab
    omega
  exact (weight_zero_iff b).1 hb0

/-- C10: the update handler adds the submitted objects in sorted order
with ACL rules first, the delete handler removes them in reverse sorted
order with ACL rules last; in both loops the processed sequence is a
permutation of the submitted objects, the trace runs the `ManageObject`
ACL check immediately before each add or remove, and a loop that
completed implies every submitted object passed the check. -/
theorem handlers_acl_order (manageOk addOk : LangBase → Bool) (objs : List LangBase)
    (pol : Policy) (q q2 : Policy) (t t2 : List PolicyOp)
    (hu : addLoop manageOk addOk pol (sortForUpdate objs) = some (q, t))
    (hd : removeLoop manageOk pol (sortForDelete objs) = some (q2, t2)) :
    (List.Perm (sortForUpdate objs) objs ∧ aclFirst (sortForUpdate objs) ∧
      t = updateTrace (sortForUpdate objs)) ∧
    (List.Perm (sortForDelete objs) objs ∧ aclLast (sortForDelete objs) ∧
      t2 = deleteTrace (sortForDelete objs)) ∧
    (∀ o ∈ objs, manageOk o = true) := by
  obtain ⟨ht, hall⟩ := addLoop_spec manageOk addOk (sortForUpdate objs) pol q t hu
  obtain ⟨ht2, hall2⟩ := removeLoop_spec manageOk (sortForDelete objs) pol q2 t2 hd
  refine ⟨⟨List.perm_insertionSort updLE objs, aclFirst_sortForUpdate objs, ht⟩,
    ⟨List.perm_insertionSort delLE objs, aclLast_sortForDelete objs, ht2⟩, ?_⟩
  intro o ho
  have hmem : o ∈ sortForUpdate objs := (List.perm_insertionSort updLE objs).mem_iff.2 ho
  exact (hall o hmem).1

/-- A non-ACL object for the handler witnesses. -/
def svcO : LangBase := ⟨"service", "p", "x"⟩

/-- An ACL rule object for the handler witnesses. -/
def aclO : LangBase := ⟨"aclrule", "p", "r"⟩

/-- Submitted objects for the handler witnesses: the ACL rule arrives last. -/
def objsC10 : List LangBase := [svcO, aclO]

/-- Witness for C10 at a concrete input: both loops complete on
`objsC10`; the update loop processes the ACL rule first and checks before
each add, the delete loop processes it last. -/
theorem handlers_acl_order_witness :
    (List.Perm (sortForUpdate objsC10) objsC10 ∧ aclFirst (sortForUpdate objsC10) ∧
      ([PolicyOp.check aclO, .addObj aclO, .check svcO, .addObj svcO] : List PolicyOp) =
        updateTrace (sortForUpdate objsC10)) ∧
    (List.Perm (sortForDelete objsC10) objsC10 ∧ aclLast (sortForDelete objsC10) ∧
      ([PolicyOp.check svcO, .removeObj svcO, .check aclO, .removeObj aclO] : List PolicyOp) =
        deleteTrace (sortForDelete objsC10)) ∧
    (∀ o ∈ objsC10, (fun (_ : LangBase) => true) o = true) :=
  handlers_acl_order (fun _ => true) (fun _ => true) objsC10 [] [aclO, svcO] []
    [PolicyOp.check aclO, .addObj aclO, .check svcO, .addObj svcO]
    [PolicyOp.check svcO, .removeObj svcO, .check aclO, .removeObj aclO]
    rfl rfl

/-! ## The noop branch of the policy update and delete handlers -/

/-- Modelled from the spec: `runtime.MaxGeneration` — the generation value
meaning "nothing to wait for". -/
def MaxGeneration : Nat := 2 ^ 64 - 1

/-- The registry as the handlers read and mutate it: the latest policy
generation and the policy content (revision bookkeeping is folded into the
abstract mutators below, which are not among the given sources). -/
structure RegistryState where
  policyGen : Nat
  policyObjects : Policy

/-- The server state the handlers touch: the registry and the number of
signals sent on the `runDesiredStateEnforcement` channel. -/
structure ApiState where
  registry : RegistryState
  enforcementSignals : Nat

/-- `api.PolicyUpdateResult`, as the handlers fill it. -/
structure UpdateResult where
  policyGeneration : Nat
  policyChanged : Bool
  waitForRevision : Nat
  planAsText : String
  eventLog : List String

/-- `coreAPI.changePolicy`: apply the object changes through the registry
(`UpdatePolicy` or `DeleteFromPolicy`, supplied as `applyChange` since the
registry implementation is not among the given sources, returning the
changed flag, the policy generation and the new registry); when something
changed create a new revision and wait for it, otherwise the revision to
wait for is `MaxGeneration`. -/
def changePolicy (applyChange : RegistryState → Bool × Nat × RegistryState)
    (newRevision : Nat → RegistryState → Nat × RegistryState)
    (reg : RegistryState) : Bool × Nat × Nat × RegistryState :=
  let r1 := applyChange reg
  if r1.1 then
    let r2 := newRevision r1.2.1 r1.2.2
    (r1.1, r1.2.1, r2.1, r2.2)
  else
    (r1.1, r1.2.1, MaxGeneration, r1.2.2)

/-- `coreAPI.handlePolicyUpdate` (success path): read the latest policy
generation, copy the policy, add the submitted objects in sorted order
(ACL rules first) with an ACL check each, validate the result, resolve
and diff (the resolver and diff engines are supplied as `resolveDiff`,
returning the action-plan text and the event log), then either — noop —
respond without touching anything, or apply the change through
`changePolicy`, respond, and signal enforcement when something changed.
`none` models the panics of the failure paths. -/
def handlePolicyUpdateM (manageOk addOk : LangBase → Bool)
    (validateP : Policy → Bool)
    (resolveDiff : Policy → String × List String)
    (applyChange : RegistryState → Bool × Nat × RegistryState)
    (newRevision : Nat → RegistryState → Nat × RegistryState)
    (objs : List LangBase) (noop : Bool) (st : ApiState) :
    Option (ApiState × UpdateResult) :=
  let policyGen := st.registry.policyGen
  match addLoop manageOk addOk st.registry.policyObjects (sortForUpdate objs) with
  | none => none
  | some (policyUpdated, _) =>
    if validateP policyUpdated then
      let rd := resolveDiff policyUpdated
      if noop then
        some (st, ⟨policyGen, false, MaxGeneration, rd.1, rd.2⟩)
      else
        let r := changePolicy applyChange newRevision st.registry
        some ({ registry := r.2.2.2,
                enforcementSignals :=
                  if r.1 then st.enforcementSignals + 1 else st.enforcementSignals },
              ⟨r.2.1, r.1, r.2.2.1, rd.1, rd.2⟩)
    else none

/-- `coreAPI.handlePolicyDelete` (success path), the mirror image with the
reverse sort, `RemoveObject` and `DeleteFromPolicy`. -/
def handlePolicyDeleteM (manageOk : LangBase → Bool)
    (validateP : Policy → Bool)
    (resolveDiff : Policy → String × List String)
    (applyChange : RegistryState → Bool × Nat × RegistryState)
    (newRevision : Nat → RegistryState → Nat × RegistryState)
    (objs : List LangBase) (noop : Bool) (st : ApiState) :
    Option (ApiState × UpdateResult) :=
  let policyGen := st.registry.policyGen
  match removeLoop manageOk st.registry.policyObjects (sortForDelete objs) with
  | none => none
  | some (policyUpdated, _) =>
    if validateP policyUpdated then
      let rd := resolveDiff policyUpdated
      if noop then
        some (st, ⟨policyGen, false, MaxGeneration, rd.1, rd.2⟩)
      else
        let r := changePolicy applyChange newRevision st.registry
        some ({ registry := r.2.2.2,
                enforcementSignals :=
                  if r.1 then st.enforcementSignals + 1 else st.enforcementSignals },
              ⟨r.2.1, r.1, r.2.2.1, rd.1, rd.2⟩)
    else none

/-- C8: with the noop flag set, neither handler persists anything — the
returned server state (registry and enforcement-signal count) is exactly
the input state — and the response carries `PolicyChanged = false`, the
unchanged policy generation, `WaitForRevision = MaxGeneration`, the
computed action-plan text and the resolution event log. -/
theorem handlers_noop_no_persist (manageOk addOk : LangBase → Bool)
    (validateP : Policy → Bool) (resolveDiff : Policy → String × List String)
    (applyChange : RegistryState → Bool × Nat × RegistryState)
    (newRevision : Nat → RegistryState → Nat × RegistryState)
    (objs : List LangBase) (st st2 st3 : ApiState) (res res2 : UpdateResult)
    (hu : handlePolicyUpdateM manageOk addOk validateP resolveDiff applyChange newRevision
        objs true st = some (st2, res))
    (hd : handlePolicyDeleteM manageOk validateP resolveDiff applyChange newRevision
        objs true st = some (st3, res2)) :
    st2 = st ∧ st3 = st ∧
    (∃ pu t, addLoop manageOk addOk st.registry.policyObjects (sortForUpdate objs) =
        some (pu, t) ∧
      res = ⟨st.registry.policyGen, false, MaxGeneration,
             (resolveDiff pu).1, (resolveDiff pu).2⟩) ∧
    (∃ pd t2, removeLoop manageOk st.registry.policyObjects (sortForDelete objs) =
        some (pd, t2) ∧
      res2 = ⟨st.registry.policyGen, false, MaxGeneration,
              (resolveDiff pd).1, (resolveDiff pd).2⟩) := by
  rcases hal : addLoop manageOk addOk st.registry.policyObjects (sortForUpdate objs)
    with _ | pr
  · simp only [handlePolicyUpdateM, hal] at hu
    exact Option.noConfusion hu
  · obtain ⟨pu, tr⟩ := pr
    simp only [handlePolicyUpdateM, hal] at hu
    rcases hvp : validateP pu with _ | _
    · rw [hvp] at hu; simp at hu
    · rw [hvp] at hu
      simp only [if_pos, if_true] at hu
      rcases hdl : removeLoop manageOk st.registry.policyObjects (sortForDelete objs)
        with _ | pr2
      · simp only [handlePolicyDeleteM, hdl] at hd
        exact Option.noConfusion hd
      · obtain ⟨pd, tr2⟩ := pr2
        simp only [handlePolicyDeleteM, hdl] at hd
        rcases hvp2 : validateP pd with _ | _
        · rw [hvp2] at hd; simp at hd
        · rw [hvp2] at hd
          simp only [if_pos, if_true] at hd
          injection hu with hu2
          obtain ⟨hu3, hu4⟩ := Prod.mk.inj hu2
          injection hd with hd2
          obtain ⟨hd3, hd4⟩ := Prod.mk.inj hd2
          exact ⟨hu3.symm, hd3.symm,
            ⟨pu, tr, rfl, hu4.symm⟩, ⟨pd, tr2, rfl, hd4.symm⟩⟩

/-- Concrete server state for the C8 witness. -/
def stC8 : ApiState := ⟨⟨7, []⟩, 0⟩

/-- Concrete resolver-and-diff collaborator for the C8 witness. -/
def rdC8 : Policy → String × List String := fun _ => ("plan", ["log"])

/-- Witness for C8 at a concrete input: both noop handlers return the
state unchanged and the response fields prescribed by the claim. -/
theorem handlers_noop_no_persist_witness :
    (∃ pu t, addLoop (fun _ => true) (fun _ => true) stC8.registry.policyObjects
        (sortForUpdate objsC10) = some (pu, t) ∧
      (⟨7, false, MaxGeneration, "plan", ["log"]⟩ : UpdateResult) =
        ⟨stC8.registry.policyGen, false, MaxGeneration, (rdC8 pu).1, (rdC8 pu).2⟩) ∧
    (∃ pd t2, removeLoop (fun _ => true) stC8.registry.policyObjects
        (sortForDelete objsC10) = some (pd, t2) ∧
      (⟨7, false, MaxGeneration, "plan", ["log"]⟩ : UpdateResult) =
        ⟨stC8.registry.policyGen, false, MaxGeneration, (rdC8 pd).1, (rdC8 pd).2⟩) := by
  have h := handlers_noop_no_persist (fun _ => true) (fun _ => true) (fun _ => true) rdC8
    (fun r => (true, r.policyGen + 1, r)) (fun g r => (g, r)) objsC10 stC8 stC8 stC8
    ⟨7, false, MaxGeneration, "plan", ["log"]⟩ ⟨7, false, MaxGeneration, "plan", ["log"]⟩
    rfl rfl
  exact ⟨h.2.2.1, h.2.2.2⟩
